import Mathlib

/-!
Verification development for the Wiener-filter deblurring program
(`src/deblur/deblur.cpp`).  The program is embedded shallowly: a
single-channel `CV_32F` image plane becomes a real-valued function of
(column, row); the complex spectrum produced by `cv::dft` becomes a
complex-valued function; the two module-level trackbar globals become an
explicit state record threaded through the functions that read them.
Floating-point arithmetic is modelled by exact real arithmetic.
-/

noncomputable section

/-- A single-channel float plane (`cv::Mat` of type `CV_32F`), as a function of
(column `x`, row `y`); only indices with `x < width` and `y < height` are
meaningful, and all sums below range over exactly those cells. -/
abbrev Grid := ℕ → ℕ → ℝ

/-- A two-plane (real, imaginary) frequency representation, as produced by
`cv::merge` of two float planes followed by `cv::dft`. -/
abbrev CGrid := ℕ → ℕ → ℂ

/-- Sum of all cells of a `w × h` grid, as computed by `cv::sum` on line 113. -/
def sum2 (w h : ℕ) (g : Grid) : ℝ :=
  ∑ x ∈ Finset.range w, ∑ y ∈ Finset.range h, g x y

/-- Lines 110-112: `Mat psf(bbox, CV_32F, Scalar(0))` followed by
`circle(psf, Point(w/2, h/2), radius, 255, -1, 5)` — a filled circle of the
given radius about the centre `(w/2, h/2)` drawn with value 255 onto the zero
grid.  The rasterised filled circle is modelled by the documented deterministic
inclusion rule: a cell inside the image whose squared Euclidean distance to the
centre is at most `radius^2` receives 255, every other cell keeps 0. -/
def diskPSF (w h radius : ℕ) : Grid := fun x y =>
  if x < w ∧ y < h ∧
      ((x : ℤ) - (w / 2 : ℕ)) ^ 2 + ((y : ℤ) - (h / 2 : ℕ)) ^ 2 ≤ (radius : ℤ) ^ 2
  then 255 else 0

/-- Line 113: `psf = psf / sum(psf)` — elementwise division of the disk by the
sum of all of its cells. -/
def wienerPSF (w h radius : ℕ) : Grid := fun x y =>
  diskPSF w h radius x y / sum2 w h (diskPSF w h radius)

/-- Lines 118-131: the quadrant swap.  With `cx = cols/2` and `cy = rows/2`
(integer division), the four `cx × cy` rectangles rooted at `(0,0)`, `(cx,0)`,
`(0,cy)` and `(cx,cy)` are swapped diagonally (`q0 ↔ q3`, `q1 ↔ q2`) through
the temporary `tmp`; because `q0, q3` are disjoint and `q1, q2` are disjoint,
the six sequential `copyTo` calls amount to this simultaneous exchange, and
every cell outside the four rectangles is untouched. -/
def centerQuadrants (w h : ℕ) (g : Grid) : Grid := fun x y =>
  if x < w / 2 ∧ y < h / 2 then g (x + w / 2) (y + h / 2)
  else if w / 2 ≤ x ∧ x < w / 2 + w / 2 ∧ y < h / 2 then g (x - w / 2) (y + h / 2)
  else if x < w / 2 ∧ h / 2 ≤ y ∧ y < h / 2 + h / 2 then g (x + w / 2) (y - h / 2)
  else if w / 2 ≤ x ∧ x < w / 2 + w / 2 ∧ h / 2 ≤ y ∧ y < h / 2 + h / 2 then
    g (x - w / 2) (y - h / 2)
  else g x y

/-- The complex exponential `exp(2·π·i·a/N)`, the twiddle factor of an `N`-point
discrete Fourier transform. -/
def eK (N : ℕ) (a : ℤ) : ℂ :=
  Complex.exp (2 * (Real.pi : ℂ) * Complex.I * a / N)

/-- `cv::dft` on a two-plane `w × h` spectrum: the forward 2D discrete Fourier
transform.  The `scale` flag models `DFT_SCALE` (divide the output by `w·h`);
`cv::dft` performs no scaling when the flag is absent. -/
def dft2 (scale : Bool) (w h : ℕ) (f : CGrid) : CGrid := fun u v =>
  (cond scale (1 / ((w : ℂ) * h)) 1) *
    ∑ x ∈ Finset.range w, ∑ y ∈ Finset.range h,
      f x y * eK w (-((u : ℤ) * x)) * eK h (-((v : ℤ) * y))

/-- `cv::idft` with no flags (line 95): the unnormalised inverse 2D discrete
Fourier transform (conjugate kernel, no division by `w·h`). -/
def idft2 (w h : ℕ) (F : CGrid) : CGrid := fun x y =>
  ∑ u ∈ Finset.range w, ∑ v ∈ Finset.range h,
    F u v * eK w ((u : ℤ) * x) * eK h ((v : ℤ) * y)

/-- Promotion of a real plane to a complex spectrum with a zero imaginary
plane, as done by `merge` with `Mat::zeros` on lines 84-86, 89-91 and 133-134. -/
def toC (g : Grid) : CGrid := fun x y => (g x y : ℂ)

/-- The state the program keeps outside any single call: the two module-level
trackbar globals of lines 20-21 (`int` sliders, created with ranges
`0..130` and `0..2000`), together with the `filtered.jpg` file written by
`displayFiltered` on line 153 — the only data that survives from one trackbar
callback to the next. -/
structure ProgState where
  radius_slider : ℕ
  snr_slider : ℕ
  filteredFile : Option Grid

/-- Line 116 and lines 118-131: clone the normalised PSF and apply the quadrant
swap to it, still in the spatial domain. -/
def wienerFreqPSF (w h radius : ℕ) : Grid :=
  centerQuadrants w h (wienerPSF w h radius)

/-- Lines 133-136: merge the centred PSF with a zero imaginary plane and apply
`cv::dft(cI, cI)` — the forward transform with no flags, hence unscaled — then
split; `planes[0]` is the real plane of this spectrum. -/
def wienerSpectrum (w h radius : ℕ) : CGrid :=
  dft2 false w h (toC (wienerFreqPSF w h radius))

/-- Lines 103-143, `getWienerFilter(Size bbox, Mat` imgOut`)`: the function
reads the globals `radius_slider` and `snr_slider`; with `H` the real plane of
the PSF spectrum it computes `pow(abs(planes[0]), 2)` (line 140), adds the
scalar `1.0 / double(snr_slider)` (line 141) and divides elementwise
(line 142). -/
def getWienerFilter (s : ProgState) (w h : ℕ) : Grid := fun x y =>
  let H := (wienerSpectrum w h s.radius_slider x y).re
  H / (|H| ^ 2 + 1 / (s.snr_slider : ℝ))

/-- Lines 82-98, `filter(inputImg, outputImg, H)`: forward transform of the
image with `DFT_SCALE` (line 87), elementwise complex product with the filter
promoted to a zero-imaginary spectrum (`mulSpectrums` with flags 0, line 93),
unnormalised inverse transform (line 95), and extraction of the real plane
(lines 96-97). -/
def filter (w h : ℕ) (inputImg : Grid) (H : Grid) : Grid := fun x y =>
  (idft2 w h (fun u v => dft2 true w h (toC inputImg) u v * toC H u v) x y).re

/-- Lines 49-60, `on_radius_trackbar` (the body of `on_snr_trackbar` on lines
65-76 is identical): take the full-image bounding box, compute the Wiener
filter from the current globals, filter the image with it, and display the
result; `displayFiltered` (line 153) then writes the result to `filtered.jpg`,
which is modelled as the `filteredFile` component of the program state (the
8-bit conversion and 0.3 preview resize of lines 150-151 are out-of-scope
display plumbing, so the stored grid is recorded before them). -/
def on_radius_trackbar (s : ProgState) (w h : ℕ) (img : Grid) : Grid × ProgState :=
  let imgFiltered := getWienerFilter s w h
  let imgMod := filter w h img imgFiltered
  (imgMod, { s with filteredFile := some imgMod })

/-- Modelled from the spec (section 4.2): the raw disk of `buildDiskPSF` before
normalisation — a zero grid of size `w × h` whose cells within Euclidean
distance `radius` of the centre `(w/2, h/2)` are set to a constant fill value
(here 1, the spec leaves the constant unspecified). -/
def specDiskRaw (w h radius : ℕ) : Grid := fun x y =>
  if x < w ∧ y < h ∧
      ((x : ℤ) - (w / 2 : ℕ)) ^ 2 + ((y : ℤ) - (h / 2 : ℕ)) ^ 2 ≤ (radius : ℤ) ^ 2
  then 1 else 0

/-- Modelled from the spec (section 4.2): `buildDiskPSF` — the raw disk divided
by the sum of all of its cells so that the kernel integrates to 1. -/
def buildDiskPSF_spec (w h radius : ℕ) : Grid := fun x y =>
  specDiskRaw w h radius x y / sum2 w h (specDiskRaw w h radius)

/-- Modelled from the spec (section 4.4): `buildWienerFilter` — build the disk
PSF, apply quadrant centering, forward-transform the centred PSF, take the real
plane `H` of the spectrum, form `degrad = |H|^2 + 1/snr` elementwise and return
`H / degrad` elementwise. -/
def buildWienerFilter_spec (w h radius snr : ℕ) : Grid := fun u v =>
  let H := (dft2 false w h (toC (centerQuadrants w h (buildDiskPSF_spec w h radius))) u v).re
  H / (|H| ^ 2 + 1 / (snr : ℝ))

/-! ### Quadrant centering -/

/-- The quadrant swap of lines 118-131 is an involution on every grid,
whatever the parities of the dimensions: each of the four rectangles is mapped
onto its diagonal partner and back, and all remaining cells are fixed. -/
lemma centerQuadrants_centerQuadrants (w h : ℕ) (g : Grid) :
    centerQuadrants w h (centerQuadrants w h g) = g := by
  funext x y
  simp only [centerQuadrants]
  split_ifs <;> first | rfl | (congr 1 <;> omega) | (exfalso; omega)

/-- C8: applying the quadrant-centering operation (diagonal pairwise swap of
the four quadrants) twice to any grid whose width and height are both even
returns the original grid exactly. -/
theorem centerQuadrants_involution (w h : ℕ) (g : Grid)
    (hw : Even w) (hh : Even h) :
    centerQuadrants w h (centerQuadrants w h g) = g :=
  centerQuadrants_centerQuadrants w h g

/-- Witness for C8 at the concrete even size 2 × 2. -/
theorem centerQuadrants_involution_witness :
    Even 2 ∧
      centerQuadrants 2 2 (centerQuadrants 2 2 (fun (x y : ℕ) => (x : ℝ) + 3 * y)) =
        (fun (x y : ℕ) => (x : ℝ) + 3 * y) :=
  ⟨by decide, centerQuadrants_involution 2 2 _ (by decide) (by decide)⟩

/-- C10: on a grid with an odd width or odd height, the quadrant boundaries are
the floored half-dimensions `w/2`, `h/2`: the final odd column `w - 1`
(respectively row `h - 1`) is left completely unchanged, and on the four
`(w/2) × (h/2)` rectangles the operation is exactly the floor-based diagonal
swap. -/
theorem centerQuadrants_floor_boundaries (w h : ℕ) (g : Grid) :
    (Odd w → ∀ y, centerQuadrants w h g (w - 1) y = g (w - 1) y) ∧
    (Odd h → ∀ x, centerQuadrants w h g x (h - 1) = g x (h - 1)) ∧
    (∀ x y, x < w / 2 → y < h / 2 →
      centerQuadrants w h g x y = g (x + w / 2) (y + h / 2)) ∧
    (∀ x y, w / 2 ≤ x → x < w / 2 + w / 2 → y < h / 2 →
      centerQuadrants w h g x y = g (x - w / 2) (y + h / 2)) ∧
    (∀ x y, x < w / 2 → h / 2 ≤ y → y < h / 2 + h / 2 →
      centerQuadrants w h g x y = g (x + w / 2) (y - h / 2)) ∧
    (∀ x y, w / 2 ≤ x → x < w / 2 + w / 2 → h / 2 ≤ y → y < h / 2 + h / 2 →
      centerQuadrants w h g x y = g (x - w / 2) (y - h / 2)) := by
  refine ⟨?_, ?_, ?_, ?_, ?_, ?_⟩ <;>
    first
    | (rintro ⟨k, hk⟩ i
       simp only [centerQuadrants]
       split_ifs <;> first | rfl | (exfalso; omega))
    | (intro x y h1 h2
       simp only [centerQuadrants]
       split_ifs <;> first | rfl | (exfalso; omega))
    | (intro x y h1 h2 h3
       simp only [centerQuadrants]
       split_ifs <;> first | rfl | (exfalso; omega))
    | (intro x y h1 h2 h3 h4
       simp only [centerQuadrants]
       split_ifs <;> first | rfl | (exfalso; omega))

/-- Witness for C10 at the concrete odd size 3 × 3: the last column and row are
fixed and the top-left quadrant cell moves by the floored half-dimensions. -/
theorem centerQuadrants_floor_boundaries_witness :
    centerQuadrants 3 3 (fun (x y : ℕ) => (x : ℝ) + 3 * y) 2 0 =
        (fun (x y : ℕ) => (x : ℝ) + 3 * y) 2 0 ∧
      centerQuadrants 3 3 (fun (x y : ℕ) => (x : ℝ) + 3 * y) 0 2 =
        (fun (x y : ℕ) => (x : ℝ) + 3 * y) 0 2 ∧
      centerQuadrants 3 3 (fun (x y : ℕ) => (x : ℝ) + 3 * y) 0 0 =
        (fun (x y : ℕ) => (x : ℝ) + 3 * y) 1 1 :=
  ⟨by exact (centerQuadrants_floor_boundaries 3 3 _).1 (by decide) 0,
   by exact (centerQuadrants_floor_boundaries 3 3 _).2.1 (by decide) 0,
   by exact (centerQuadrants_floor_boundaries 3 3 _).2.2.1 0 0 (by decide) (by decide)⟩

/-! ### PSF construction -/

lemma diskPSF_nonneg (w h r x y : ℕ) : 0 ≤ diskPSF w h r x y := by
  unfold diskPSF; split <;> norm_num

lemma diskPSF_center (w h r : ℕ) (hw : 1 ≤ w) (hh : 1 ≤ h) :
    diskPSF w h r (w / 2) (h / 2) = 255 := by
  unfold diskPSF
  rw [if_pos]
  refine ⟨by omega, by omega, ?_⟩
  simp only [sub_self]
  positivity

lemma sum2_diskPSF_pos (w h r : ℕ) (hw : 1 ≤ w) (hh : 1 ≤ h) :
    0 < sum2 w h (diskPSF w h r) := by
  have h1 : (255 : ℝ) ≤ ∑ y ∈ Finset.range h, diskPSF w h r (w / 2) y := by
    rw [← diskPSF_center w h r hw hh]
    exact Finset.single_le_sum (fun i _ => diskPSF_nonneg w h r (w / 2) i)
      (Finset.mem_range.mpr (by omega))
  have h2 : (∑ y ∈ Finset.range h, diskPSF w h r (w / 2) y) ≤ sum2 w h (diskPSF w h r) :=
    Finset.single_le_sum
      (fun i _ => Finset.sum_nonneg fun j _ => diskPSF_nonneg w h r i j)
      (Finset.mem_range.mpr (by omega))
  linarith

lemma sum2_div (w h : ℕ) (g : Grid) (c : ℝ) :
    sum2 w h (fun x y => g x y / c) = sum2 w h g / c := by
  simp [sum2, Finset.sum_div]

/-- C4: for every radius at least 1 and every target size large enough to
contain the disk, the normalised PSF of lines 110-113 sums to 1 over all its
cells, and every cell strictly outside the disk is exactly zero. -/
theorem psf_normalized_sum_one (w h r : ℕ) (hr : 1 ≤ r)
    (hw : 2 * r + 1 ≤ w) (hh : 2 * r + 1 ≤ h) :
    sum2 w h (wienerPSF w h r) = 1 ∧
      ∀ x y : ℕ, (r : ℤ) ^ 2 < ((x : ℤ) - (w / 2 : ℕ)) ^ 2 + ((y : ℤ) - (h / 2 : ℕ)) ^ 2 →
        wienerPSF w h r x y = 0 := by
  have hpos := sum2_diskPSF_pos w h r (by omega) (by omega)
  constructor
  · have : sum2 w h (wienerPSF w h r)
        = sum2 w h (diskPSF w h r) / sum2 w h (diskPSF w h r) := by
      rw [← sum2_div]; rfl
    rw [this, div_self (ne_of_gt hpos)]
  · intro x y hout
    unfold wienerPSF diskPSF
    rw [if_neg, zero_div]
    rintro ⟨-, -, hle⟩
    linarith

/-- Witness for C4: radius 1 on a 3 × 3 grid. -/
theorem psf_normalized_sum_one_witness :
    (1 ≤ 1 ∧ 2 * 1 + 1 ≤ 3) ∧
      sum2 3 3 (wienerPSF 3 3 1) = 1 ∧
      ∀ x y : ℕ, (1 : ℤ) ^ 2 < ((x : ℤ) - (3 / 2 : ℕ)) ^ 2 + ((y : ℤ) - (3 / 2 : ℕ)) ^ 2 →
        wienerPSF 3 3 1 x y = 0 :=
  ⟨⟨by decide, by decide⟩,
   psf_normalized_sum_one 3 3 1 (by decide) (by decide) (by decide)⟩

/-! ### Degenerate radius -/

lemma diskPSF_zero_radius (w h : ℕ) (hw : 1 ≤ w) (hh : 1 ≤ h) (x y : ℕ) :
    diskPSF w h 0 x y = if x = w / 2 ∧ y = h / 2 then 255 else 0 := by
  unfold diskPSF
  by_cases hxy : x = w / 2 ∧ y = h / 2
  · rcases hxy with ⟨rfl, rfl⟩
    rw [if_pos ⟨by omega, by omega, by norm_num⟩, if_pos ⟨rfl, rfl⟩]
  · rw [if_neg, if_neg hxy]
    rintro ⟨hxw, hyh, hle⟩
    have hle2 : ((x : ℤ) - (w / 2 : ℕ)) ^ 2 + ((y : ℤ) - (h / 2 : ℕ)) ^ 2 ≤ 0 :=
      le_trans hle (by norm_num)
    have hx0 : ((x : ℤ) - (w / 2 : ℕ)) ^ 2 = 0 :=
      le_antisymm (by nlinarith [sq_nonneg ((y : ℤ) - (h / 2 : ℕ))]) (sq_nonneg _)
    have hy0 : ((y : ℤ) - (h / 2 : ℕ)) ^ 2 = 0 :=
      le_antisymm (by nlinarith [sq_nonneg ((x : ℤ) - (w / 2 : ℕ))]) (sq_nonneg _)
    rw [sq_eq_zero_iff] at hx0 hy0
    exact hxy ⟨by omega, by omega⟩

lemma sum2_diskPSF_zero (w h : ℕ) (hw : 1 ≤ w) (hh : 1 ≤ h) :
    sum2 w h (diskPSF w h 0) = 255 := by
  have hinner : ∀ x : ℕ,
      (∑ y ∈ Finset.range h, if x = w / 2 ∧ y = h / 2 then (255 : ℝ) else 0)
        = if x = w / 2 then 255 else 0 := by
    intro x
    by_cases hx : x = w / 2
    · subst hx
      rw [if_pos rfl, Finset.sum_eq_single (h / 2)]
      · simp
      · intro b _ hb
        exact if_neg (by rintro ⟨-, rfl⟩; exact hb rfl)
      · intro hmem
        exact absurd (Finset.mem_range.mpr (by omega)) hmem
    · rw [if_neg hx]
      exact Finset.sum_eq_zero fun y _ => if_neg (by rintro ⟨h1, -⟩; exact hx h1)
  have hstep : sum2 w h (diskPSF w h 0)
      = ∑ x ∈ Finset.range w, ∑ y ∈ Finset.range h,
          (if x = w / 2 ∧ y = h / 2 then (255 : ℝ) else 0) :=
    Finset.sum_congr rfl fun x _ => Finset.sum_congr rfl fun y _ =>
      diskPSF_zero_radius w h hw hh x y
  rw [hstep, Finset.sum_congr rfl fun x _ => hinner x, Finset.sum_eq_single (w / 2)]
  · simp
  · intro b _ hb
    exact if_neg hb
  · intro hmem
    exact absurd (Finset.mem_range.mpr (by omega)) hmem

/-- Counterexample to C7 as stated: at `radius = 0` the rasterised disk is not
empty — it is the single centre pixel — so on a 2 × 2 grid the sum-normalised
kernel is neither all-zero nor an error value: its centre cell equals 1. -/
theorem radius_zero_psf_not_all_zero_cex :
    ¬ ∀ x y : ℕ, wienerPSF 2 2 0 x y = 0 := by
  intro hall
  have h1 := hall 1 1
  have h2 : wienerPSF 2 2 0 1 1 = 1 := by
    unfold wienerPSF
    rw [sum2_diskPSF_zero 2 2 (by norm_num) (by norm_num),
      show diskPSF 2 2 0 1 1 = 255 from diskPSF_center 2 2 0 (by norm_num) (by norm_num)]
    norm_num
  rw [h1] at h2
  norm_num at h2

/-- C7 amended: `radius = 0` yields a nonempty single-point disk, so the
sum-normalisation of line 113 never divides by zero: for every grid with
`w, h ≥ 1` and any radius the raw disk sum is strictly positive, and at
`radius = 0` the normalised kernel is the unit point mass at the centre —
1 at `(w/2, h/2)` and 0 everywhere else (no NaN, no all-zero kernel, and the
code has no error path). -/
theorem radius_zero_psf_delta_amended (w h : ℕ) (hw : 1 ≤ w) (hh : 1 ≤ h) (r : ℕ) :
    0 < sum2 w h (diskPSF w h r) ∧
      wienerPSF w h 0 (w / 2) (h / 2) = 1 ∧
      ∀ x y : ℕ, ¬(x = w / 2 ∧ y = h / 2) → wienerPSF w h 0 x y = 0 := by
  refine ⟨sum2_diskPSF_pos w h r hw hh, ?_, ?_⟩
  · unfold wienerPSF
    rw [sum2_diskPSF_zero w h hw hh, diskPSF_center w h 0 hw hh]
    norm_num
  · intro x y hxy
    unfold wienerPSF
    rw [diskPSF_zero_radius w h hw hh x y, if_neg hxy, zero_div]

/-- Witness for the amended C7 at the concrete size 2 × 2 with radius 0. -/
theorem radius_zero_psf_delta_amended_witness :
    (1 ≤ 2 ∧ 1 ≤ 2) ∧
      0 < sum2 2 2 (diskPSF 2 2 0) ∧
      wienerPSF 2 2 0 (2 / 2) (2 / 2) = 1 ∧
      ∀ x y : ℕ, ¬(x = 2 / 2 ∧ y = 2 / 2) → wienerPSF 2 2 0 x y = 0 :=
  ⟨⟨by decide, by decide⟩, radius_zero_psf_delta_amended 2 2 (by decide) (by decide) 0⟩

/-! ### Discrete Fourier analysis of the transform pair -/

lemma eK_mul_eK (N : ℕ) (a b : ℤ) : eK N a * eK N b = eK N (a + b) := by
  rw [eK, eK, eK, ← Complex.exp_add]
  congr 1
  rw [div_add_div_same]
  congr 1
  push_cast
  ring

lemma eK_dvd (N : ℕ) (hN : N ≠ 0) (m : ℤ) (hm : (N : ℤ) ∣ m) : eK N m = 1 := by
  obtain ⟨k, rfl⟩ := hm
  have hNc : (N : ℂ) ≠ 0 := Nat.cast_ne_zero.mpr hN
  have harg : 2 * (Real.pi : ℂ) * Complex.I * ((((N : ℤ) * k : ℤ)) : ℂ) / (N : ℂ)
      = (k : ℂ) * (2 * (Real.pi : ℂ) * Complex.I) := by
    rw [div_eq_iff hNc]
    push_cast
    ring
  rw [eK, harg]
  exact Complex.exp_int_mul_two_pi_mul_I k

lemma eK_ne_one (N : ℕ) (hN : N ≠ 0) (m : ℤ) (hm : ¬ (N : ℤ) ∣ m) : eK N m ≠ 1 := by
  intro hone
  rw [eK, Complex.exp_eq_one_iff] at hone
  obtain ⟨n, hn⟩ := hone
  have hNc : (N : ℂ) ≠ 0 := Nat.cast_ne_zero.mpr hN
  rw [div_eq_iff hNc] at hn
  have h2 : (2 * (Real.pi : ℂ) * Complex.I) ≠ 0 :=
    mul_ne_zero (mul_ne_zero two_ne_zero (Complex.ofReal_ne_zero.mpr Real.pi_ne_zero))
      Complex.I_ne_zero
  have hmn : (m : ℂ) = (n : ℂ) * N := by
    apply mul_left_cancel₀ h2
    linear_combination hn
  have hmz : m = n * N := by exact_mod_cast hmn
  exact hm ⟨n, by rw [hmz, mul_comm]⟩

lemma sum_eK (N : ℕ) (hN : N ≠ 0) (m : ℤ) :
    ∑ u ∈ Finset.range N, eK N ((u : ℤ) * m) = if (N : ℤ) ∣ m then (N : ℂ) else 0 := by
  have hpow : ∀ u : ℕ, eK N ((u : ℤ) * m) = eK N m ^ u := by
    intro u
    rw [eK, eK, ← Complex.exp_nat_mul]
    congr 1
    push_cast
    ring
  by_cases hd : (N : ℤ) ∣ m
  · rw [if_pos hd]
    rw [Finset.sum_congr rfl fun u _ => by rw [hpow u, eK_dvd N hN m hd, one_pow]]
    simp
  · rw [if_neg hd]
    have hNpow : eK N m ^ N = 1 := by
      rw [← hpow N]
      exact eK_dvd N hN _ ⟨m, rfl⟩
    rw [Finset.sum_congr rfl fun u _ => hpow u, geom_sum_eq (eK_ne_one N hN m hd), hNpow]
    simp

lemma nat_eq_of_dvd_sub (N x a : ℕ) (hx : x < N) (ha : a < N)
    (h : (N : ℤ) ∣ ((x : ℤ) - (a : ℤ))) : a = x := by
  have h0 : ((x : ℤ) - (a : ℤ)) = 0 :=
    Int.eq_zero_of_dvd_of_natAbs_lt_natAbs h (by omega)
  omega

/-- One-dimensional building block of the 2D transform: the unscaled forward
`N`-point discrete Fourier transform. -/
def dft1 (N : ℕ) (f : ℕ → ℂ) : ℕ → ℂ := fun u =>
  ∑ x ∈ Finset.range N, f x * eK N (-((u : ℤ) * x))

/-- One-dimensional building block of the 2D transform: the unnormalised
inverse `N`-point discrete Fourier transform. -/
def idft1 (N : ℕ) (F : ℕ → ℂ) : ℕ → ℂ := fun x =>
  ∑ u ∈ Finset.range N, F u * eK N ((u : ℤ) * x)

lemma idft1_dft1 (N : ℕ) (f : ℕ → ℂ) (x : ℕ) (hx : x < N) :
    idft1 N (dft1 N f) x = (N : ℂ) * f x := by
  have hN : N ≠ 0 := by omega
  unfold idft1 dft1
  have step1 : ∀ u : ℕ,
      (∑ a ∈ Finset.range N, f a * eK N (-((u : ℤ) * a))) * eK N ((u : ℤ) * x)
        = ∑ a ∈ Finset.range N, f a * eK N ((u : ℤ) * ((x : ℤ) - a)) := by
    intro u
    rw [Finset.sum_mul]
    refine Finset.sum_congr rfl fun a _ => ?_
    rw [mul_assoc, eK_mul_eK]
    congr 2
    ring
  rw [Finset.sum_congr rfl fun u _ => step1 u, Finset.sum_comm]
  have step2 : ∀ a : ℕ,
      (∑ u ∈ Finset.range N, f a * eK N ((u : ℤ) * ((x : ℤ) - a)))
        = f a * (if (N : ℤ) ∣ ((x : ℤ) - a) then (N : ℂ) else 0) := by
    intro a
    rw [← Finset.mul_sum, sum_eK N hN]
  rw [Finset.sum_congr rfl fun a _ => step2 a, Finset.sum_eq_single x]
  · rw [sub_self, if_pos (dvd_zero _)]
    ring
  · intro b hmem hb
    rw [if_neg, mul_zero]
    intro hdvd
    exact hb (nat_eq_of_dvd_sub N x b hx (Finset.mem_range.mp hmem) hdvd)
  · intro hmem
    exact absurd (Finset.mem_range.mpr hx) hmem

lemma dft2_false_apply (w h : ℕ) (f : CGrid) (u v : ℕ) :
    dft2 false w h f u v = dft1 h (fun b => dft1 w (fun a => f a b) u) v := by
  unfold dft2 dft1
  rw [Bool.cond_false, one_mul, Finset.sum_comm]
  refine Finset.sum_congr rfl fun y _ => ?_
  rw [Finset.sum_mul]

lemma idft2_apply (w h : ℕ) (F : CGrid) (x y : ℕ) :
    idft2 w h F x y = idft1 w (fun u => idft1 h (F u) y) x := by
  unfold idft2 idft1
  refine Finset.sum_congr rfl fun u _ => ?_
  rw [Finset.sum_mul]
  exact Finset.sum_congr rfl fun v _ => by ring

lemma idft1_const_mul (N : ℕ) (c : ℂ) (F : ℕ → ℂ) (x : ℕ) :
    idft1 N (fun u => c * F u) x = c * idft1 N F x := by
  unfold idft1
  rw [Finset.mul_sum]
  exact Finset.sum_congr rfl fun u _ => by ring

lemma idft2_dft2_raw (w h : ℕ) (f : CGrid) (x y : ℕ) (hx : x < w) (hy : y < h) :
    idft2 w h (dft2 false w h f) x y = ((w : ℂ) * h) * f x y := by
  rw [idft2_apply]
  have hstep : ∀ u : ℕ,
      idft1 h (dft2 false w h f u) y = (h : ℂ) * dft1 w (fun a => f a y) u := by
    intro u
    have hrow : dft2 false w h f u = dft1 h (fun b => dft1 w (fun a => f a b) u) := by
      funext v
      exact dft2_false_apply w h f u v
    rw [hrow, idft1_dft1 h _ y hy]
  rw [show (fun u => idft1 h (dft2 false w h f u) y)
      = fun u => (h : ℂ) * dft1 w (fun a => f a y) u from funext hstep]
  rw [idft1_const_mul, idft1_dft1 w _ x hx]
  ring

lemma idft2_dft2_scaled (w h : ℕ) (f : CGrid) (x y : ℕ) (hx : x < w) (hy : y < h) :
    idft2 w h (dft2 true w h f) x y = f x y := by
  have hsc : dft2 true w h f = fun u v => (1 / ((w : ℂ) * h)) * dft2 false w h f u v := by
    funext u v
    unfold dft2
    rw [Bool.cond_true, Bool.cond_false, one_mul]
  have hlin : idft2 w h (fun u v => (1 / ((w : ℂ) * h)) * dft2 false w h f u v) x y
      = (1 / ((w : ℂ) * h)) * idft2 w h (dft2 false w h f) x y := by
    unfold idft2
    rw [Finset.mul_sum]
    refine Finset.sum_congr rfl fun u _ => ?_
    rw [Finset.mul_sum]
    exact Finset.sum_congr rfl fun v _ => by ring
  rw [hsc, hlin, idft2_dft2_raw w h f x y hx hy]
  have hw0 : (w : ℂ) ≠ 0 := Nat.cast_ne_zero.mpr (by omega)
  have hh0 : (h : ℂ) ≠ 0 := Nat.cast_ne_zero.mpr (by omega)
  field_simp

/-- C3: for every real-valued grid `G` and every in-range cell, the real plane
of `inverse(forward(G))` — the scaled forward transform of line 87 composed
with the unnormalised inverse of line 95 — equals `G` exactly (the real-number
model of the floating-point tolerance statement). -/
theorem dft_roundtrip_identity (w h : ℕ) (g : Grid) (x y : ℕ)
    (hx : x < w) (hy : y < h) :
    (idft2 w h (dft2 true w h (toC g)) x y).re = g x y := by
  rw [idft2_dft2_scaled w h (toC g) x y hx hy]
  exact Complex.ofReal_re _

/-- Witness for C3 on a concrete 1 × 1 grid holding the value 5. -/
theorem dft_roundtrip_identity_witness :
    0 < 1 ∧ (idft2 1 1 (dft2 true 1 1 (toC (fun (x y : ℕ) => (5 : ℝ)))) 0 0).re = 5 :=
  ⟨by decide,
   by exact dft_roundtrip_identity 1 1 (fun (x y : ℕ) => (5 : ℝ)) 0 0 (by decide) (by decide)⟩

/-! ### The Wiener construction follows the specified steps -/

lemma diskPSF_eq_smul_specDiskRaw (w h r x y : ℕ) :
    diskPSF w h r x y = 255 * specDiskRaw w h r x y := by
  unfold diskPSF specDiskRaw
  split_ifs <;> norm_num

lemma sum2_diskPSF_eq (w h r : ℕ) :
    sum2 w h (diskPSF w h r) = 255 * sum2 w h (specDiskRaw w h r) := by
  unfold sum2
  rw [Finset.mul_sum]
  refine Finset.sum_congr rfl fun a _ => ?_
  rw [Finset.mul_sum]
  exact Finset.sum_congr rfl fun b _ => diskPSF_eq_smul_specDiskRaw w h r a b

lemma wienerPSF_eq_spec (w h r : ℕ) : wienerPSF w h r = buildDiskPSF_spec w h r := by
  funext x y
  unfold wienerPSF buildDiskPSF_spec
  rw [diskPSF_eq_smul_specDiskRaw, sum2_diskPSF_eq,
    mul_div_mul_left _ _ (by norm_num : (255 : ℝ) ≠ 0)]

/-- C1: `getWienerFilter` follows exactly the specified steps — build the disk
PSF over the target size, apply quadrant centering to the spatial PSF before
any transform, forward-transform the centred PSF, take the real plane `H` of
the spectrum, compute `degrad = |H|^2 + 1/snr` elementwise, and return the
elementwise quotient `H / degrad`.  The code and the spec-side pipeline agree
on every cell (the disk fill constant cancels under normalisation). -/
theorem getWienerFilter_follows_spec_steps (s : ProgState) (w h : ℕ) :
    getWienerFilter s w h = buildWienerFilter_spec w h s.radius_slider s.snr_slider := by
  funext x y
  simp only [getWienerFilter, buildWienerFilter_spec, wienerSpectrum, wienerFreqPSF,
    wienerPSF_eq_spec]

/-! ### Scaling convention of the two forward transforms -/

lemma eK_zero (N : ℕ) : eK N 0 = 1 := by
  simp [eK]

lemma sum2_diskPSF_2_1 : sum2 2 1 (diskPSF 2 1 1) = 510 := by
  norm_num [sum2, diskPSF, Finset.sum_range_succ, Finset.sum_range_one]

lemma wienerFreqPSF_2_1_left : wienerFreqPSF 2 1 1 0 0 = 255 / 510 := by
  unfold wienerFreqPSF centerQuadrants
  norm_num
  unfold wienerPSF
  rw [sum2_diskPSF_2_1]
  norm_num [diskPSF]

lemma wienerFreqPSF_2_1_right : wienerFreqPSF 2 1 1 1 0 = 255 / 510 := by
  unfold wienerFreqPSF centerQuadrants
  norm_num
  unfold wienerPSF
  rw [sum2_diskPSF_2_1]
  norm_num [diskPSF]

/-- Counterexample to C2 as stated: inside `getWienerFilter` the forward
transform of the centred PSF (line 135, `cv::dft` with no flags) does not
scale its output by `1/(width·height)`: on a 2 × 1 grid with radius 1 the
computed spectrum differs from the `1/(w·h)`-scaled forward transform of the
same centred PSF at cell (0,0) — the code gives 1 where the scaled convention
gives 1/2. -/
theorem psf_forward_transform_unscaled_cex :
    ¬ (wienerSpectrum 2 1 1 = dft2 true 2 1 (toC (wienerFreqPSF 2 1 1))) := by
  intro hclaim
  have h00 := congrFun (congrFun hclaim 0) 0
  have hL : wienerSpectrum 2 1 1 0 0 = 1 := by
    unfold wienerSpectrum dft2
    rw [Bool.cond_false, one_mul]
    simp only [Finset.sum_range_succ, Finset.sum_range_one, toC,
      wienerFreqPSF_2_1_left, wienerFreqPSF_2_1_right, Nat.cast_zero, Nat.cast_one,
      zero_mul, mul_zero, neg_zero, eK_zero, mul_one]
    push_cast
    norm_num
  have hR : dft2 true 2 1 (toC (wienerFreqPSF 2 1 1)) 0 0 = 1 / 2 := by
    unfold dft2
    rw [Bool.cond_true]
    simp only [Finset.sum_range_succ, Finset.sum_range_one, toC,
      wienerFreqPSF_2_1_left, wienerFreqPSF_2_1_right, Nat.cast_zero, Nat.cast_one,
      zero_mul, mul_zero, neg_zero, eK_zero, mul_one]
    push_cast
    norm_num
  rw [hL, hR] at h00
  norm_num at h00

/-- C2 amended: only the image-path forward transform (line 87, with
`DFT_SCALE`) scales its output by `1/(width·height)` — composed with the
unnormalised inverse it is the identity on the real plane, so callers need no
rescale; the forward transform of the centred PSF inside `getWienerFilter`
(line 135) applies no scaling, and its spectrum equals `width·height` times
the scaled convention. -/
theorem forward_scaling_convention_amended (w h : ℕ) (g : Grid) (x y : ℕ)
    (hx : x < w) (hy : y < h) :
    filter w h g (fun _ _ => 1) x y = g x y ∧
      ∀ r u v, wienerSpectrum w h r u v
        = ((w : ℂ) * h) * dft2 true w h (toC (wienerFreqPSF w h r)) u v := by
  constructor
  · unfold filter
    have hone : (fun u v => dft2 true w h (toC g) u v * toC (fun _ _ => (1 : ℝ)) u v)
        = dft2 true w h (toC g) := by
      funext u v
      simp [toC]
    rw [hone, idft2_dft2_scaled w h (toC g) x y hx hy]
    exact Complex.ofReal_re _
  · intro r u v
    simp only [wienerSpectrum, dft2, Bool.cond_false, Bool.cond_true, one_mul]
    have hw0 : (w : ℂ) ≠ 0 := Nat.cast_ne_zero.mpr (by omega)
    have hh0 : (h : ℂ) ≠ 0 := Nat.cast_ne_zero.mpr (by omega)
    field_simp

/-- Witness for the amended C2 on a concrete 1 × 1 grid. -/
theorem forward_scaling_convention_witness :
    0 < 1 ∧
      (filter 1 1 (fun (x y : ℕ) => (7 : ℝ)) (fun _ _ => 1) 0 0 = 7 ∧
        ∀ r u v, wienerSpectrum 1 1 r u v
          = (((1 : ℕ) : ℂ) * ((1 : ℕ) : ℂ)) * dft2 true 1 1 (toC (wienerFreqPSF 1 1 r)) u v) :=
  ⟨by decide, by
    exact forward_scaling_convention_amended 1 1 (fun (x y : ℕ) => (7 : ℝ)) 0 0
      (by decide) (by decide)⟩

/-! ### Missing snr guard -/

lemma sum2_diskPSF_1_1 : sum2 1 1 (diskPSF 1 1 1) = 255 := by
  norm_num [sum2, diskPSF, Finset.sum_range_one]

lemma wienerFreqPSF_1_1 : wienerFreqPSF 1 1 1 0 0 = 1 := by
  unfold wienerFreqPSF centerQuadrants
  norm_num
  unfold wienerPSF
  rw [sum2_diskPSF_1_1]
  norm_num [diskPSF]

lemma wienerSpectrum_1_1 : wienerSpectrum 1 1 1 0 0 = 1 := by
  unfold wienerSpectrum dft2
  rw [Bool.cond_false, one_mul]
  simp only [Finset.sum_range_one, toC, wienerFreqPSF_1_1, Nat.cast_zero,
    zero_mul, mul_zero, neg_zero, eK_zero, mul_one]
  norm_num

/-- C6 is a code bug: line 141 adds `1.0 / double(snr_slider)` with no guard,
so when the SNR slider sits at its minimum 0 the code takes the reciprocal of
zero and still returns a transfer function instead of failing with an
`InvalidParameter` error.  Evaluated on a 1 × 1 image with radius 1 and
`snr_slider = 0`, the embedded code returns the value 1 at cell (0,0) (in the
real-number model `1/0 = 0`, so `degrad` degenerates to `|H|^2`; in IEEE
arithmetic the reciprocal is `+inf` and the returned filter silently collapses
— either way a value is produced and no error is raised). -/
theorem snr_zero_no_guard_eval :
    getWienerFilter (ProgState.mk 1 0 none) 1 1 0 0 = 1 := by
  show (wienerSpectrum 1 1 1 0 0).re
      / (|(wienerSpectrum 1 1 1 0 0).re| ^ 2 + 1 / ((0 : ℕ) : ℝ)) = 1
  rw [wienerSpectrum_1_1]
  norm_num

/-! ### Boundedness of the transfer function -/

lemma wiener_cell_bound (H s : ℝ) (hs : 0 < s) :
    |H / (|H| ^ 2 + 1 / s)| ≤ Real.sqrt s / 2 := by
  have htpos : 0 < Real.sqrt s := Real.sqrt_pos.mpr hs
  have ht2 : Real.sqrt s ^ 2 = s := Real.sq_sqrt hs.le
  have hd : 0 < |H| ^ 2 + 1 / s := by positivity
  rw [abs_div, abs_of_pos hd, div_le_div_iff hd (by norm_num : (0 : ℝ) < 2)]
  have hts : Real.sqrt s * (1 / s) = 1 / Real.sqrt s := by
    rw [← ht2]
    field_simp
  rw [mul_add, hts, ← sub_nonneg]
  have hkey : Real.sqrt s * |H| ^ 2 + 1 / Real.sqrt s - |H| * 2
      = (Real.sqrt s * |H| - 1) ^ 2 / Real.sqrt s := by
    rw [eq_div_iff (ne_of_gt htpos)]
    field_simp
    rw [← sq_abs H]
    ring
  rw [hkey]
  positivity

/-- C9: for `snr_slider > 0` the denominator `|H|^2 + 1/snr` is strictly
positive at every cell, so every cell of the constructed Wiener transfer
function is a well-defined finite real number, and its magnitude is bounded by
`sqrt(snr)` — indeed by the sharper AM-GM bound `sqrt(snr)/2`. -/
theorem wiener_filter_bounded (s : ProgState) (w h x y : ℕ) (hs : 0 < s.snr_slider) :
    0 < |(wienerSpectrum w h s.radius_slider x y).re| ^ 2 + 1 / (s.snr_slider : ℝ) ∧
      |getWienerFilter s w h x y| ≤ Real.sqrt (s.snr_slider : ℝ) / 2 ∧
      |getWienerFilter s w h x y| ≤ Real.sqrt (s.snr_slider : ℝ) := by
  have hsr : (0 : ℝ) < (s.snr_slider : ℝ) := by exact_mod_cast hs
  have hd : 0 < |(wienerSpectrum w h s.radius_slider x y).re| ^ 2 + 1 / (s.snr_slider : ℝ) := by
    positivity
  have hb := wiener_cell_bound ((wienerSpectrum w h s.radius_slider x y).re) _ hsr
  have hgw : getWienerFilter s w h x y
      = (wienerSpectrum w h s.radius_slider x y).re /
          (|(wienerSpectrum w h s.radius_slider x y).re| ^ 2 + 1 / (s.snr_slider : ℝ)) := rfl
  refine ⟨hd, by rw [hgw]; exact hb, ?_⟩
  rw [hgw]
  have hs2 : Real.sqrt (s.snr_slider : ℝ) / 2 ≤ Real.sqrt (s.snr_slider : ℝ) := by
    have := Real.sqrt_nonneg ((s.snr_slider : ℝ))
    linarith
  exact le_trans hb hs2

/-- Witness for C9 at the default slider state on a 1 × 1 grid. -/
theorem wiener_filter_bounded_witness :
    0 < (ProgState.mk 64 1200 none).snr_slider ∧
      (0 < |(wienerSpectrum 1 1 (ProgState.mk 64 1200 none).radius_slider 0 0).re| ^ 2
            + 1 / ((ProgState.mk 64 1200 none).snr_slider : ℝ) ∧
        |getWienerFilter (ProgState.mk 64 1200 none) 1 1 0 0|
            ≤ Real.sqrt ((ProgState.mk 64 1200 none).snr_slider : ℝ) / 2 ∧
        |getWienerFilter (ProgState.mk 64 1200 none) 1 1 0 0|
            ≤ Real.sqrt ((ProgState.mk 64 1200 none).snr_slider : ℝ)) :=
  ⟨by decide, wiener_filter_bounded (ProgState.mk 64 1200 none) 1 1 0 0 (by decide)⟩

/-! ### Purity of the pipeline -/

/-- C5: each trackbar callback — and hence the whole restore pipeline — is a
pure function of (image, size, radius, snr): two invocations whose slider
values agree produce identical output images, regardless of any other state
the program retains across or outside calls (here, the previously written
`filtered.jpg`). -/
theorem pipeline_pure_function_of_inputs (s t : ProgState) (w h : ℕ) (img : Grid)
    (hr : s.radius_slider = t.radius_slider) (hsnr : s.snr_slider = t.snr_slider) :
    (on_radius_trackbar s w h img).1 = (on_radius_trackbar t w h img).1 := by
  cases s with
  | mk rs ss fs =>
    cases t with
    | mk rt st ft =>
      have h1 : rs = rt := hr
      have h2 : ss = st := hsnr
      subst h1
      subst h2
      rfl

/-- Witness for C5: same sliders, different retained file state, same output. -/
theorem pipeline_pure_function_of_inputs_witness :
    (on_radius_trackbar (ProgState.mk 64 1200 none) 2 2 (fun (x y : ℕ) => (1 : ℝ))).1
      = (on_radius_trackbar (ProgState.mk 64 1200 (some (fun (x y : ℕ) => (0 : ℝ)))) 2 2
          (fun (x y : ℕ) => (1 : ℝ))).1 :=
  pipeline_pure_function_of_inputs _ _ 2 2 _ rfl rfl
